import Mathlib

/-!
A shallow embedding of the fitness-correlation dashboard (`main.py`) and of
the claims of its specification.

The meaningful core of the program is two pandas-based functions:

* `load_data`: normalize column names, restrict to a fixed allow-list of
  fitness-metric columns, coerce cells to numbers (failures become missing),
  drop all-missing columns, then drop all-missing rows;
* `calculate_correlation`: Pearson correlation matrix, diagonal masked to
  NaN, `unstack().sort_values(ascending=False).drop_duplicates()`, positive
  extreme = first element, negative extreme = last element after `dropna()`;

plus the heatmap reshaping (`corr_df`): `stack()`, self-pair removal and
symmetric deduplication by the lexicographically sorted name pair.

Modelling conventions:

* a dataframe is column-major: a list of (name, values) with missing values
  as `none` (pandas NaN);
* rational arithmetic replaces IEEE doubles;
* the Pearson coefficient r = sxy / √(sxx·syy) is irrational in general, so
  the embedding stores its image under the strictly increasing bijection
  t ↦ t·|t| of ℝ, namely sxy·|sxy| / (sxx·syy) ∈ ℚ.  Every use the program
  makes of the coefficients (sorting, equality-based deduplication,
  maximum/minimum selection, definedness) is invariant under this
  order-isomorphic re-coding.
-/

namespace FitCorr

/-- A cell of the raw CSV table as ingested: a numeric value, a piece of
non-numeric text, or an empty/missing field. -/
inductive RawCell where
  | numeric (q : ℚ)
  | text (s : String)
  | empty
deriving DecidableEq, Repr

/-- A raw dataframe, column-major: one (name, cells) pair per column. -/
abbrev RawFrame := List (String × List RawCell)

/-- A numeric dataframe, column-major; `none` is a missing value (NaN). -/
abbrev Frame := List (String × List (Option ℚ))

/-! ## Loader (`load_data`) -/

/-- The characters Python's `str.isspace` recognizes (and `str.strip()`
therefore removes): ASCII whitespace plus the Unicode space separators and
line/paragraph separators. -/
def pyIsSpace (c : Char) : Bool :=
  c.isWhitespace || c = '\x0b' || c = '\x0c' ||
    (0x1c ≤ c.toNat && c.toNat ≤ 0x1f) ||
    c = '\u0085' || c = '\u00a0' || c = '\u1680' ||
    (0x2000 ≤ c.toNat && c.toNat ≤ 0x200a) ||
    c = '\u2028' || c = '\u2029' || c = '\u202f' || c = '\u205f' ||
    c = '\u3000'

/-- `df.columns.str.strip()`: remove leading and trailing whitespace (all
Unicode whitespace, as Python's `str.strip()` does) from a column name. -/
def stripName (s : String) : String :=
  String.mk (((s.toList.dropWhile pyIsSpace).reverse.dropWhile
    pyIsSpace).reverse)

/-- `.str.strip().str.replace(' ', '_').str.replace(' ', '_')`:
single-character substring replacement is a character map. -/
def normName (s : String) : String :=
  String.mk ((stripName s).toList.map
    (fun c => if c = ' ' ∨ c = ' ' then '_' else c))

/-- The fixed allow-list `numeric_cols` of recognized fitness-metric column
names. -/
def numeric_cols : List String :=
  ["나이", "신장", "체중", "체지방율", "허리둘레",
   "악력_좌", "악력_우", "윗몸말아올리기", "반복점프", "앉아윗몸앞으로굽히기",
   "BMI", "교차윗몸일으키기", "왕복오래달리기", "10M_4회_왕복달리기", "제자리_멀리뛰기",
   "의자에앉았다일어서기", "상대악력", "피부두겹합", "반응시간", "절대악력"]

/-- `df.columns = df.columns.str.strip()...`: normalize every column name. -/
def normalizeFrame (t : RawFrame) : RawFrame :=
  t.map (fun c => (normName c.1, c.2))

/-- `available_numeric_cols = [col for col in numeric_cols if col in df.columns]`
followed by `df[available_numeric_cols]`: for each allow-list name, in
allow-list order, every column of the frame bearing that name, in their
original order.  A name with no matching column contributes nothing (it is
absent from `available_numeric_cols`, and the filter is empty either way);
a label duplicated by normalization collisions contributes all of its
columns, as pandas label-based selection does. -/
def selectCols (t : RawFrame) : RawFrame :=
  numeric_cols.flatMap (fun n => t.filter (fun c => c.1 == n))

/-- `pd.to_numeric(errors='coerce')` on one cell: numeric stays, anything
else becomes missing. -/
def coerceCell : RawCell → Option ℚ
  | RawCell.numeric q => some q
  | RawCell.text _ => none
  | RawCell.empty => none

/-- `df.apply(pd.to_numeric, errors='coerce')`. -/
def coerceFrame (t : RawFrame) : Frame :=
  t.map (fun c => (c.1, c.2.map coerceCell))

/-- `dropna(axis=1, how='all')`: keep the columns holding at least one
non-missing value. -/
def dropAllNaNCols (t : Frame) : Frame :=
  t.filter (fun c => c.2.any (fun v => v.isSome))

/-- The number of rows of a column-major frame. -/
def numRows (t : Frame) : Nat :=
  t.foldr (fun c m => max c.2.length m) 0

/-- Row `i` of a column-major frame. -/
def rowAt (t : Frame) (i : Nat) : List (Option ℚ) :=
  t.map (fun c => c.2.getD i none)

/-- Does row `i` hold at least one non-missing value? -/
def rowHasValue (t : Frame) (i : Nat) : Bool :=
  (rowAt t i).any (fun v => v.isSome)

/-- The indices of the rows `dropna(how='all')` keeps. -/
def keepIdxs (t : Frame) : List Nat :=
  (List.range (numRows t)).filter (fun i => rowHasValue t i)

/-- `dropna(how='all')`: keep the rows holding at least one non-missing
value. -/
def dropAllNaNRows (t : Frame) : Frame :=
  t.map (fun c => (c.1, (keepIdxs t).map (fun i => c.2.getD i none)))

/-- `load_data`: name normalization, allow-list column selection, numeric
coercion, then drop all-missing columns, then drop all-missing rows. -/
def load_data (t : RawFrame) : Frame :=
  dropAllNaNRows (dropAllNaNCols (coerceFrame (selectCols (normalizeFrame t))))

/-! ## Correlation extractor (`calculate_correlation`) -/

/-- Pairwise-complete observations: the rows where both columns are
non-missing. -/
def pairedObs : List (Option ℚ) → List (Option ℚ) → List (ℚ × ℚ)
  | some a :: x, some b :: y => (a, b) :: pairedObs x y
  | _ :: x, _ :: y => pairedObs x y
  | _, _ => []

/-- Rational addition, written out on numerators and denominators.  Provably
equal to `a + b` (`qAdd_eq`); spelled via `mkRat` so that it evaluates by
kernel reduction (the library's `Rat.add` is sealed). -/
def qAdd (a b : ℚ) : ℚ := mkRat (a.num * b.den + b.num * a.den) (a.den * b.den)

/-- Rational subtraction; provably equal to `a - b` (`qSub_eq`). -/
def qSub (a b : ℚ) : ℚ := mkRat (a.num * b.den - b.num * a.den) (a.den * b.den)

/-- Rational multiplication; provably equal to `a * b` (`qMul_eq`). -/
def qMul (a b : ℚ) : ℚ := mkRat (a.num * b.num) (a.den * b.den)

/-- Rational division; provably equal to `a / b` (`qDiv_eq`). -/
def qDiv (a b : ℚ) : ℚ := qMul a (Rat.divInt b.den b.num)

/-- Sum of a list of rationals; provably equal to `l.sum` (`qSum_eq`). -/
def qSum (l : List ℚ) : ℚ := l.foldr qAdd 0

/-- The Pearson coefficient of two columns over their pairwise-complete
observations, as computed by `df.corr()`: with mx, my the means over the
co-observed rows and sxx = Σ(a-mx)², syy = Σ(b-my)², sxy = Σ(a-mx)(b-my),
the real coefficient is r = sxy / √(sxx·syy), undefined (NaN) when
sxx·syy = 0 (fewer than two co-observed rows, or a constant column).  The
embedding returns the order-isomorphic rational re-coding
r·|r| = sxy·|sxy| / (sxx·syy); `none` is NaN.  The arithmetic is carried
out by the `q`-operations above, each provably equal to the corresponding
field operation of ℚ. -/
def pearsonQ (x y : List (Option ℚ)) : Option ℚ :=
  let ps := pairedObs x y
  let n : ℚ := ps.length
  let mx := qDiv (qSum (ps.map (fun p => p.1))) n
  let my := qDiv (qSum (ps.map (fun p => p.2))) n
  let sxx := qSum (ps.map (fun p => qMul (qSub p.1 mx) (qSub p.1 mx)))
  let syy := qSum (ps.map (fun p => qMul (qSub p.2 my) (qSub p.2 my)))
  let sxy := qSum (ps.map (fun p => qMul (qSub p.1 mx) (qSub p.2 my)))
  if sxx = 0 ∨ syy = 0 then none
  else some (qDiv (qMul sxy |sxy|) (qMul sxx syy))

/-- Name of column `k`. -/
def colName (t : Frame) (k : Nat) : String := (t.getD k ("", [])).1

/-- Values of column `k`. -/
def colVals (t : Frame) (k : Nat) : List (Option ℚ) := (t.getD k ("", [])).2

/-- Entry (row i, column j) of the correlation matrix after
`np.fill_diagonal(corr_matrix.values, np.nan)`: the diagonal is masked to
NaN, every other entry is the pairwise Pearson coefficient. -/
def corrVal (t : Frame) (i j : Nat) : Option ℚ :=
  if i = j then none else pearsonQ (colVals t i) (colVals t j)

/-- The masked correlation matrix (row-major), as returned to the caller. -/
def corrMatrixMasked (t : Frame) : List (List (Option ℚ)) :=
  (List.range t.length).map (fun i =>
    (List.range t.length).map (fun j => corrVal t i j))

/-- One entry of the unstacked series: an ordered pair of column names and a
(possibly undefined) coefficient. -/
abbrev Entry := (String × String) × Option ℚ

/-- `corr_matrix.unstack()`: the matrix as a series keyed by
(column label, row label), enumerated column-major — for each column j,
for each row i, the entry ((name j, name i), M[i][j]). -/
def corrSeries (t : Frame) : List Entry :=
  (List.range t.length).flatMap (fun j =>
    (List.range t.length).map (fun i =>
      ((colName t j, colName t i), corrVal t i j)))

/-- Sort key of a series value: NaN sorts below every defined value, so that
a descending sort puts NaN entries last (`na_position='last'`). -/
def sortKey : Option ℚ → WithBot ℚ
  | none => (⊥ : WithBot ℚ)
  | some q => (q : WithBot ℚ)

/-- The descending comparison used by `sort_values(ascending=False)`. -/
def entryGE (a b : Entry) : Prop := sortKey b.2 ≤ sortKey a.2

instance : DecidableRel entryGE :=
  fun a b => inferInstanceAs (Decidable (sortKey b.2 ≤ sortKey a.2))

instance : IsTotal Entry entryGE :=
  ⟨fun a b => le_total (sortKey b.2) (sortKey a.2)⟩

instance : IsTrans Entry entryGE :=
  ⟨fun _ _ _ hab hbc => le_trans hbc hab⟩

instance : IsRefl Entry entryGE := ⟨fun a => le_refl (sortKey a.2)⟩

/-- `corr_matrix.unstack().sort_values(ascending=False)`. -/
def sortedSeries (t : Frame) : List Entry :=
  List.insertionSort entryGE (corrSeries t)

/-- `drop_duplicates` keeping the first occurrence of each key (pandas
treats NaN keys as equal to each other). -/
def dedupKeyedAux {α κ : Type} [DecidableEq κ] (key : α → κ) :
    List κ → List α → List α
  | _, [] => []
  | seen, a :: l =>
    if key a ∈ seen then dedupKeyedAux key seen l
    else a :: dedupKeyedAux key (key a :: seen) l

/-- `drop_duplicates()` (keep='first'), deduplicating by an arbitrary key. -/
def dedupKeyed {α κ : Type} [DecidableEq κ] (key : α → κ) (l : List α) :
    List α :=
  dedupKeyedAux key [] l

/-- `corr_series = corr_matrix.unstack().sort_values(ascending=False).drop_duplicates()`:
deduplication is by coefficient value. -/
def corrSeriesDeduped (t : Frame) : List Entry :=
  dedupKeyed (fun e => e.2) (sortedSeries t)

/-- The failures the analysis can surface.  `indexError` is positional
indexing out of range (`.iloc` on an empty series); `insufficientDataError`
is the dedicated error the design documentation names for under-sized
inputs — the source defines and raises no such error. -/
inductive PyErr where
  | indexError
  | insufficientDataError
deriving DecidableEq, Repr

/-- The tuple returned by `calculate_correlation`. -/
structure CorrResult where
  posPair : String × String
  posCorr : Option ℚ
  negPair : String × String
  negCorr : Option ℚ
  matrix : List (List (Option ℚ))
deriving DecidableEq, Repr

/-- `calculate_correlation`: the positive extreme is
`corr_series.iloc[0]` / `corr_series.index[0]`, the negative extreme is
`corr_series.dropna().iloc[-1]` / `corr_series.dropna().index[-1]`; either
positional lookup on an empty series raises IndexError. -/
def calculate_correlation (t : Frame) : Except PyErr CorrResult :=
  match corrSeriesDeduped t with
  | [] => Except.error PyErr.indexError
  | p :: _ =>
    match ((corrSeriesDeduped t).filter (fun e => e.2.isSome)).getLast? with
    | none => Except.error PyErr.indexError
    | some q => Except.ok ⟨p.1, p.2, q.1, q.2, corrMatrixMasked t⟩

/-- The defined (non-NaN) coefficients of the unstacked series; the masked
diagonal contributes none of them. -/
def definedVals (t : Frame) : List ℚ :=
  (corrSeries t).filterMap (fun e => e.2)

/-! ## Heatmap reshaping (`corr_df`) -/

/-- `tuple(sorted((a, b)))` on two column names. -/
def sortedPair (a b : String) : String × String :=
  if a ≤ b then (a, b) else (b, a)

/-- `corr_matrix.stack()`: row-major enumeration of the matrix with NaN
entries dropped (`dropna=True` is the stacking default), giving
(row label, column label, coefficient) triples. -/
def corrLong (t : Frame) : List ((String × String) × ℚ) :=
  (List.range t.length).flatMap (fun i =>
    (List.range t.length).filterMap (fun j =>
      (corrVal t i j).map (fun v => ((colName t i, colName t j), v))))

/-- The long-format table handed to the heatmap: self pairs filtered out,
then `drop_duplicates(subset=['sorted_pair'])`. -/
def corr_df (t : Frame) : List ((String × String) × ℚ) :=
  dedupKeyed (fun e => sortedPair e.1.1 e.1.2)
    ((corrLong t).filter (fun e => e.1.1 != e.1.2))

/-! ## Concrete example tables -/

/-- Scenario 1 of the specification: heights and weights in perfect linear
relation. -/
def demo2 : Frame :=
  [("신장", [some 170, some 180, some 160]), ("체중", [some 70, some 80, some 60])]

/-- A table with a single usable numeric column. -/
def demo1 : Frame := [("나이", [some 20, some 30, some 40])]

/-- Three columns in perfect pairwise linear relation: every off-diagonal
coefficient equals 1 exactly. -/
def demo3 : Frame :=
  [("A", [some 1, some 2]), ("B", [some 2, some 4]), ("C", [some 3, some 6])]

/-- A raw table exercising name normalization, allow-list filtering, numeric
coercion, and both dropna passes. -/
def demoRaw : RawFrame :=
  [(" 신장 ", [RawCell.numeric 170, RawCell.text "x"]),
   ("junk", [RawCell.numeric 5, RawCell.numeric 6]),
   ("체 중", [RawCell.text "bad", RawCell.empty])]

/-- The value `calculate_correlation` returns on `demo2`. -/
def demo2Res : CorrResult :=
  ⟨("신장", "체중"), some 1, ("신장", "체중"), some 1,
    [[none, some 1], [some 1, none]]⟩

/-! ## General-purpose lemmas -/

instance {ε α : Type} [DecidableEq ε] [DecidableEq α] : DecidableEq (Except ε α) :=
  fun a b =>
    match a, b with
    | Except.error e, Except.error f =>
      decidable_of_iff (e = f) ⟨fun h => by rw [h], fun h => by injection h⟩
    | Except.error _, Except.ok _ => isFalse (fun h => Except.noConfusion h)
    | Except.ok _, Except.error _ => isFalse (fun h => Except.noConfusion h)
    | Except.ok x, Except.ok y =>
      decidable_of_iff (x = y) ⟨fun h => by rw [h], fun h => by injection h⟩

theorem countP_le_one_of_pairwise {α : Type} {p : α → Bool} :
    ∀ {l : List α}, l.Pairwise (fun a b => p a = true → p b = true → False) →
      l.countP p ≤ 1 := by
  intro l h
  induction h with
  | nil => simp
  | @cons a l hab _ ih =>
    by_cases hpa : p a = true
    · have hz : l.countP p = 0 :=
        List.countP_eq_zero.mpr (fun b hb hpb => (hab b hb hpa hpb).elim)
      simp [List.countP_cons, hpa, hz]
    · simpa [List.countP_cons, hpa] using ih

/-! ## Deduplication lemmas -/

theorem dedupKeyedAux_sublist {α κ : Type} [DecidableEq κ] (key : α → κ) :
    ∀ (l : List α) (seen : List κ), List.Sublist (dedupKeyedAux key seen l) l := by
  intro l
  induction l with
  | nil => intro seen; simp [dedupKeyedAux]
  | cons a l ih =>
    intro seen
    simp only [dedupKeyedAux]
    split
    · exact (ih seen).cons a
    · exact (ih (key a :: seen)).cons₂ a

theorem dedupKeyed_sublist {α κ : Type} [DecidableEq κ] (key : α → κ)
    (l : List α) : List.Sublist (dedupKeyed key l) l :=
  dedupKeyedAux_sublist key l []

theorem key_not_seen_of_mem_dedupKeyedAux {α κ : Type} [DecidableEq κ]
    {key : α → κ} :
    ∀ {l : List α} {seen : List κ} {a : α},
      a ∈ dedupKeyedAux key seen l → key a ∉ seen := by
  intro l
  induction l with
  | nil => intro seen a h; simp [dedupKeyedAux] at h
  | cons b l ih =>
    intro seen a h
    simp only [dedupKeyedAux] at h
    split at h
    · exact ih h
    · rcases List.mem_cons.mp h with rfl | h'
      · assumption
      · exact fun hs => ih h' (List.mem_cons_of_mem _ hs)

theorem dedupKeyedAux_pairwise {α κ : Type} [DecidableEq κ] (key : α → κ) :
    ∀ (l : List α) (seen : List κ),
      (dedupKeyedAux key seen l).Pairwise (fun a b => key a ≠ key b) := by
  intro l
  induction l with
  | nil => intro seen; simp [dedupKeyedAux]
  | cons b l ih =>
    intro seen
    simp only [dedupKeyedAux]
    split
    · exact ih seen
    · refine List.Pairwise.cons ?_ (ih (key b :: seen))
      intro c hc
      have := key_not_seen_of_mem_dedupKeyedAux hc
      exact fun hbc => this (by rw [← hbc]; exact List.mem_cons_self _ _)

theorem dedupKeyed_pairwise {α κ : Type} [DecidableEq κ] (key : α → κ)
    (l : List α) : (dedupKeyed key l).Pairwise (fun a b => key a ≠ key b) :=
  dedupKeyedAux_pairwise key l []

theorem exists_key_dedupKeyedAux {α κ : Type} [DecidableEq κ] {key : α → κ} :
    ∀ (l : List α) (seen : List κ) (k : κ), k ∉ seen →
      ((∃ a ∈ dedupKeyedAux key seen l, key a = k) ↔ ∃ a ∈ l, key a = k) := by
  intro l
  induction l with
  | nil => intro seen k _; simp [dedupKeyedAux]
  | cons b l ih =>
    intro seen k hk
    simp only [dedupKeyedAux]
    split
    · rename_i hb
      have hbk : key b ≠ k := fun h => hk (h ▸ hb)
      rw [ih seen k hk]
      constructor
      · rintro ⟨a, ha, hka⟩
        exact ⟨a, List.mem_cons_of_mem _ ha, hka⟩
      · rintro ⟨a, ha, hka⟩
        rcases List.mem_cons.mp ha with rfl | ha'
        · exact absurd hka hbk
        · exact ⟨a, ha', hka⟩
    · rename_i hb
      by_cases hkb : key b = k
      · constructor <;> intro _ <;> exact ⟨b, List.mem_cons_self _ _, hkb⟩
      · have hk' : k ∉ key b :: seen := by
          intro h
          rcases List.mem_cons.mp h with h' | h'
          · exact hkb h'.symm
          · exact hk h'
        have ihh := ih (key b :: seen) k hk'
        constructor
        · rintro ⟨a, ha, hka⟩
          rcases List.mem_cons.mp ha with rfl | ha'
          · exact ⟨a, List.mem_cons_self _ _, hka⟩
          · obtain ⟨a', ha'', hka'⟩ := ihh.mp ⟨a, ha', hka⟩
            exact ⟨a', List.mem_cons_of_mem _ ha'', hka'⟩
        · rintro ⟨a, ha, hka⟩
          rcases List.mem_cons.mp ha with rfl | ha'
          · exact ⟨a, List.mem_cons_self _ _, hka⟩
          · obtain ⟨a', ha'', hka'⟩ := ihh.mpr ⟨a, ha', hka⟩
            exact ⟨a', List.mem_cons_of_mem _ ha'', hka'⟩

theorem exists_key_dedupKeyed {α κ : Type} [DecidableEq κ] {key : α → κ}
    {l : List α} {k : κ} :
    (∃ a ∈ dedupKeyed key l, key a = k) ↔ ∃ a ∈ l, key a = k :=
  exists_key_dedupKeyedAux l [] k (by simp)

theorem dedupKeyed_cons {α κ : Type} [DecidableEq κ] (key : α → κ) (a : α)
    (l : List α) :
    dedupKeyed key (a :: l) = a :: dedupKeyedAux key [key a] l := by
  simp [dedupKeyed, dedupKeyedAux]

/-! ## List access lemmas -/

theorem getD_of_lt {α : Type} (l : List α) (d : α) {i : Nat} (h : i < l.length) :
    l.getD i d = l[i] := by
  simp [List.getD_eq_getElem?_getD, List.getElem?_eq_getElem h]

/-! ## Sorting lemmas -/

theorem sortedSeries_perm (t : Frame) : (sortedSeries t).Perm (corrSeries t) :=
  List.perm_insertionSort entryGE (corrSeries t)

theorem sortedSeries_sorted (t : Frame) :
    List.Sorted entryGE (sortedSeries t) :=
  List.sorted_insertionSort entryGE (corrSeries t)

theorem corrSeriesDeduped_sublist (t : Frame) :
    List.Sublist (corrSeriesDeduped t) (sortedSeries t) :=
  dedupKeyed_sublist _ _

theorem corrSeriesDeduped_sorted (t : Frame) :
    List.Sorted entryGE (corrSeriesDeduped t) :=
  List.Pairwise.sublist (corrSeriesDeduped_sublist t) (sortedSeries_sorted t)

theorem corrSeriesDeduped_val_pairwise (t : Frame) :
    (corrSeriesDeduped t).Pairwise (fun a b => a.2 ≠ b.2) :=
  dedupKeyed_pairwise _ _

theorem mem_series_of_mem_deduped {t : Frame} {e : Entry}
    (h : e ∈ corrSeriesDeduped t) : e ∈ corrSeries t :=
  (sortedSeries_perm t).mem_iff.mp ((corrSeriesDeduped_sublist t).subset h)

theorem exists_deduped_val {t : Frame} {v : Option ℚ} :
    (∃ e ∈ corrSeriesDeduped t, e.2 = v) ↔ ∃ e ∈ corrSeries t, e.2 = v := by
  constructor
  · rintro ⟨e, he, hv⟩
    exact ⟨e, mem_series_of_mem_deduped he, hv⟩
  · rintro ⟨e, he, hv⟩
    obtain ⟨e', he', hv'⟩ :=
      (@exists_key_dedupKeyedAux Entry (Option ℚ) _ (fun x => x.2)
        (sortedSeries t) [] v (by simp)).mpr
        ⟨e, (sortedSeries_perm t).mem_iff.mpr he, hv⟩
    exact ⟨e', he', hv'⟩

theorem entryGE_refl (a : Entry) : entryGE a a := le_refl _

theorem rel_getLast_of_sorted :
    ∀ {l : List Entry} {q : Entry}, List.Sorted entryGE l → l.getLast? = some q →
      ∀ x ∈ l, entryGE x q := by
  intro l
  induction l with
  | nil => intro q _ h; simp at h
  | cons a l ih =>
    intro q hs hl x hx
    cases l with
    | nil =>
      have ha : a = q := by simpa using hl
      have hxa : x = a := by simpa using hx
      subst ha; subst hxa
      exact entryGE_refl x
    | cons b l' =>
      rw [List.getLast?_cons_cons] at hl
      rcases List.mem_cons.mp hx with rfl | hx'
      · exact (List.sorted_cons.mp hs).1 q (List.mem_of_getLast?_eq_some hl)
      · exact ih (List.sorted_cons.mp hs).2 hl x hx'

theorem rel_head_of_sorted {l : List Entry} {a : Entry}
    (hs : List.Sorted entryGE (a :: l)) : ∀ x ∈ a :: l, entryGE a x := by
  intro x hx
  rcases List.mem_cons.mp hx with rfl | hx'
  · exact entryGE_refl x
  · exact (List.sorted_cons.mp hs).1 x hx'

/-! ## Series membership lemmas -/

theorem mem_corrSeries {t : Frame} {e : Entry} :
    e ∈ corrSeries t ↔ ∃ j i, j < t.length ∧ i < t.length ∧
      e = ((colName t j, colName t i), corrVal t i j) := by
  constructor
  · intro h
    obtain ⟨j, hj, h2⟩ := List.mem_flatMap.mp h
    obtain ⟨i, hi, he⟩ := List.mem_map.mp h2
    exact ⟨j, i, List.mem_range.mp hj, List.mem_range.mp hi, he.symm⟩
  · rintro ⟨j, i, hj, hi, rfl⟩
    exact List.mem_flatMap.mpr ⟨j, List.mem_range.mpr hj,
      List.mem_map.mpr ⟨i, List.mem_range.mpr hi, rfl⟩⟩

theorem mem_definedVals {t : Frame} {w : ℚ} :
    w ∈ definedVals t ↔ ∃ e ∈ corrSeries t, e.2 = some w := by
  simp [definedVals, List.mem_filterMap]

theorem colName_inj {t : Frame} (hN : (t.map Prod.fst).Nodup) {i j : Nat}
    (hi : i < t.length) (hj : j < t.length) (h : colName t i = colName t j) :
    i = j := by
  unfold colName at h
  rw [getD_of_lt _ _ hi, getD_of_lt _ _ hj] at h
  have hi' : i < (t.map Prod.fst).length := by simpa using hi
  have hj' : j < (t.map Prod.fst).length := by simpa using hj
  have hg : (t.map Prod.fst)[i] = (t.map Prod.fst)[j] := by
    simpa [List.getElem_map] using h
  exact (List.Nodup.getElem_inj_iff hN).mp hg

/-! ## The `q`-operations agree with the field operations of ℚ -/

theorem qAdd_eq (a b : ℚ) : qAdd a b = a + b := (Rat.add_def' a b).symm

theorem qSub_eq (a b : ℚ) : qSub a b = a - b := (Rat.sub_def' a b).symm

theorem qMul_eq (a b : ℚ) : qMul a b = a * b := by
  rw [Rat.mul_def, Rat.normalize_eq_mkRat]
  rfl

theorem qDiv_eq (a b : ℚ) : qDiv a b = a / b := by
  rw [Rat.div_def, Rat.inv_def, qDiv, qMul_eq]

theorem qSum_eq : ∀ l : List ℚ, qSum l = l.sum := by
  intro l
  induction l with
  | nil => rfl
  | cons a l ih =>
    show qAdd a (qSum l) = (a :: l).sum
    rw [qAdd_eq, ih, List.sum_cons]

/-- `pearsonQ` written with the standard field operations of ℚ. -/
theorem pearsonQ_def (x y : List (Option ℚ)) :
    pearsonQ x y =
      (let ps := pairedObs x y
       let n : ℚ := ps.length
       let mx := (ps.map (fun p => p.1)).sum / n
       let my := (ps.map (fun p => p.2)).sum / n
       let sxx := (ps.map (fun p => (p.1 - mx) * (p.1 - mx))).sum
       let syy := (ps.map (fun p => (p.2 - my) * (p.2 - my))).sum
       let sxy := (ps.map (fun p => (p.1 - mx) * (p.2 - my))).sum
       if sxx = 0 ∨ syy = 0 then none
       else some (sxy * |sxy| / (sxx * syy))) := by
  simp only [pearsonQ, qSum_eq, qDiv_eq, qMul_eq, qSub_eq]

/-! ## Symmetry of the Pearson coefficient -/

theorem pairedObs_swap : ∀ (x y : List (Option ℚ)),
    pairedObs y x = (pairedObs x y).map Prod.swap := by
  intro x
  induction x with
  | nil =>
    intro y
    cases y with
    | nil => rfl
    | cons b y => cases b <;> simp [pairedObs]
  | cons a x ih =>
    intro y
    cases y with
    | nil => cases a <;> simp [pairedObs]
    | cons b y => cases a <;> cases b <;> simp [pairedObs, ih y]

theorem pearsonQ_symm (x y : List (Option ℚ)) :
    pearsonQ y x = pearsonQ x y := by
  rw [pearsonQ_def, pearsonQ_def]
  simp only [pairedObs_swap x y, List.length_map, List.map_map]
  simp only [Function.comp_def, Prod.fst_swap, Prod.snd_swap]
  simp [mul_comm, or_comm]

theorem corrVal_symm (t : Frame) (i j : Nat) : corrVal t i j = corrVal t j i := by
  unfold corrVal
  by_cases h : i = j
  · subst h; simp
  · rw [if_neg h, if_neg (fun hh => h hh.symm)]
    exact pearsonQ_symm (colVals t j) (colVals t i)

/-! ## Undefined coefficients from too few observations -/

theorem pearsonQ_eq_none_of_length_le_one {x y : List (Option ℚ)}
    (h : (pairedObs x y).length ≤ 1) : pearsonQ x y = none := by
  rw [pearsonQ_def]
  cases hp : pairedObs x y with
  | nil => simp [hp]
  | cons p l =>
    cases l with
    | nil => simp [hp]
    | cons p' l' => rw [hp] at h; simp at h

theorem corrVal_eq_none_of_insufficient {t : Frame}
    (h : ∀ i, i < t.length → ∀ j, j < t.length → i ≠ j →
      (pairedObs (colVals t i) (colVals t j)).length ≤ 1)
    {i j : Nat} (hi : i < t.length) (hj : j < t.length) :
    corrVal t i j = none := by
  unfold corrVal
  split
  · rfl
  · rename_i hij
    exact pearsonQ_eq_none_of_length_le_one (h i hi j hj hij)

/-! ## Distinctness of names at defined entries -/

theorem entry_names_ne {t : Frame} (hN : (t.map Prod.fst).Nodup) {e : Entry}
    (he : e ∈ corrSeries t) {w : ℚ} (hw : e.2 = some w) : e.1.1 ≠ e.1.2 := by
  obtain ⟨j, i, hj, hi, rfl⟩ := mem_corrSeries.mp he
  intro hnames
  have hij : j = i := colName_inj hN hj hi hnames
  subst hij
  simp [corrVal] at hw

/-! ## The extractor on accepted inputs -/

theorem calc_ok_spec {t : Frame} {r : CorrResult}
    (h : calculate_correlation t = Except.ok r) :
    ∃ v u, r.posCorr = some v ∧ r.negCorr = some u ∧
      (r.posPair, some v) ∈ corrSeries t ∧ (r.negPair, some u) ∈ corrSeries t ∧
      (∀ w ∈ definedVals t, w ≤ v) ∧ ∀ w ∈ definedVals t, u ≤ w := by
  unfold calculate_correlation at h
  cases hd : corrSeriesDeduped t with
  | nil => rw [hd] at h; exact Except.noConfusion h
  | cons p rest =>
    rw [hd] at h
    dsimp only at h
    cases hl : ((p :: rest).filter (fun e => e.2.isSome)).getLast? with
    | none => rw [hl] at h; exact Except.noConfusion h
    | some q =>
      rw [hl] at h
      dsimp only at h
      injection h with h2
      subst h2
      have hqf : q ∈ (p :: rest).filter (fun e => e.2.isSome) :=
        List.mem_of_getLast?_eq_some hl
      have hqD : q ∈ corrSeriesDeduped t := hd ▸ List.mem_of_mem_filter hqf
      have hqSome : q.2.isSome := (List.mem_filter.mp hqf).2
      obtain ⟨u, hu⟩ := Option.isSome_iff_exists.mp hqSome
      have hpD : p ∈ corrSeriesDeduped t := hd ▸ List.mem_cons_self _ _
      have hDsorted : List.Sorted entryGE (p :: rest) :=
        hd ▸ corrSeriesDeduped_sorted t
      have hpq : entryGE p q := by
        rcases List.mem_cons.mp (show q ∈ p :: rest from hd ▸ hqD) with rfl | hq'
        · exact entryGE_refl _
        · exact rel_head_of_sorted hDsorted q (List.mem_cons_of_mem _ hq')
      have hpSome : ∃ v, p.2 = some v := by
        cases hp2 : p.2 with
        | some v => exact ⟨v, rfl⟩
        | none =>
          exfalso
          have hle := hpq
          unfold entryGE at hle
          rw [hp2, hu] at hle
          simp only [sortKey] at hle
          exact WithBot.not_coe_le_bot u hle
      obtain ⟨v, hv⟩ := hpSome
      -- `p` is also the head of the sorted series, so it dominates every entry
      have hdom : ∀ x ∈ sortedSeries t, entryGE p x := by
        cases hs : sortedSeries t with
        | nil =>
          have : corrSeriesDeduped t = [] := by
            rw [corrSeriesDeduped, hs]; rfl
          rw [hd] at this
          exact absurd this (by simp)
        | cons a tail =>
          have hhead : corrSeriesDeduped t =
              a :: dedupKeyedAux (fun e => e.2) [a.2] tail := by
            rw [corrSeriesDeduped, hs]; exact dedupKeyed_cons _ _ _
          rw [hd] at hhead
          have hpa : p = a := by injection hhead
          subst hpa
          exact rel_head_of_sorted (hs ▸ sortedSeries_sorted t)
      refine ⟨v, u, hv, hu, ?_, ?_, ?_, ?_⟩
      · have : p ∈ corrSeries t := mem_series_of_mem_deduped hpD
        rw [← hv]
        exact this
      · have : q ∈ corrSeries t := mem_series_of_mem_deduped hqD
        rw [← hu]
        exact this
      · intro w hw
        obtain ⟨e, he, he2⟩ := mem_definedVals.mp hw
        have hle := hdom e ((sortedSeries_perm t).mem_iff.mpr he)
        unfold entryGE at hle
        rw [he2, hv] at hle
        exact WithBot.coe_le_coe.mp (by simpa [sortKey] using hle)
      · intro w hw
        obtain ⟨e, he, he2⟩ := mem_definedVals.mp hw
        obtain ⟨e', he', he2'⟩ := exists_deduped_val.mpr ⟨e, he, he2⟩
        have he'f : e' ∈ (p :: rest).filter (fun x => x.2.isSome) :=
          List.mem_filter.mpr ⟨hd ▸ he', by simp [he2']⟩
        have hsf : List.Sorted entryGE
            ((p :: rest).filter (fun x => x.2.isSome)) :=
          List.Pairwise.filter _ hDsorted
        have hle := rel_getLast_of_sorted hsf hl e' he'f
        unfold entryGE at hle
        rw [hu, he2'] at hle
        exact WithBot.coe_le_coe.mp (by simpa [sortKey] using hle)

/-! ## Heatmap helper lemmas -/

theorem sortedPair_comm (a b : String) : sortedPair a b = sortedPair b a := by
  unfold sortedPair
  split_ifs with h1 h2 h2
  · cases le_antisymm h1 h2; rfl
  · rfl
  · rfl
  · rcases le_total a b with h | h
    · exact absurd h h1
    · exact absurd h h2

/-! ## Loader lemmas -/

theorem length_le_numRows {t : Frame} {c : String × List (Option ℚ)}
    (hc : c ∈ t) : c.2.length ≤ numRows t := by
  induction t with
  | nil => cases hc
  | cons d t ih =>
    rcases List.mem_cons.mp hc with rfl | hc'
    · exact le_max_left _ _
    · exact le_trans (ih hc') (le_max_right _ _)

theorem numRows_eq_of_const {t : Frame} {m : Nat}
    (h : ∀ c ∈ t, c.2.length = m) (hne : t ≠ []) : numRows t = m := by
  induction t with
  | nil => cases hne rfl
  | cons d t' ih =>
    have hd : d.2.length = m := h d (List.mem_cons_self _ _)
    by_cases h0 : t' = []
    · subst h0; simp [numRows, hd]
    · have ht' := ih (fun c hc => h c (List.mem_cons_of_mem _ hc)) h0
      show max d.2.length (numRows t') = m
      rw [hd, ht']
      exact max_self m

theorem dropAllNaNRows_cols_have_value {t : Frame}
    (ht : ∀ c ∈ t, (c.2.any fun v => v.isSome) = true) :
    ∀ c' ∈ dropAllNaNRows t, (c'.2.any fun v => v.isSome) = true := by
  intro c' hc'
  obtain ⟨c, hc, rfl⟩ := List.mem_map.mp hc'
  obtain ⟨v, hv, hvs⟩ := List.any_eq_true.mp (ht c hc)
  obtain ⟨r, hr, hrv⟩ := List.mem_iff_getElem.mp hv
  have hrn : c.2.getD r none = v := by rw [getD_of_lt _ _ hr, hrv]
  have hrlt : r < numRows t := lt_of_lt_of_le hr (length_le_numRows hc)
  have hrow : rowHasValue t r = true := by
    unfold rowHasValue rowAt
    rw [List.any_eq_true]
    exact ⟨c.2.getD r none, List.mem_map.mpr ⟨c, hc, rfl⟩, by rw [hrn]; exact hvs⟩
  have hrk : r ∈ keepIdxs t :=
    List.mem_filter.mpr ⟨List.mem_range.mpr hrlt, hrow⟩
  rw [List.any_eq_true]
  exact ⟨v, List.mem_map.mpr ⟨r, hrk, hrn⟩, hvs⟩

theorem dropAllNaNRows_rows_have_value (t : Frame) :
    ∀ i, i < numRows (dropAllNaNRows t) →
      ((rowAt (dropAllNaNRows t) i).any fun v => v.isSome) = true := by
  intro i hi
  by_cases h0 : t = []
  · subst h0; simp [dropAllNaNRows, numRows] at hi
  · have hlen : ∀ c' ∈ dropAllNaNRows t, c'.2.length = (keepIdxs t).length := by
      intro c' hc'
      obtain ⟨c, _, rfl⟩ := List.mem_map.mp hc'
      simp
    have hne : dropAllNaNRows t ≠ [] := by
      simp only [dropAllNaNRows, ne_eq, List.map_eq_nil_iff]
      exact h0
    have hnum : numRows (dropAllNaNRows t) = (keepIdxs t).length :=
      numRows_eq_of_const hlen hne
    rw [hnum] at hi
    have hKi : (keepIdxs t)[i] ∈ keepIdxs t := List.getElem_mem hi
    have hKrow : rowHasValue t ((keepIdxs t)[i]) = true :=
      (List.mem_filter.mp hKi).2
    have hrow_eq : rowAt (dropAllNaNRows t) i = rowAt t ((keepIdxs t)[i]) := by
      unfold rowAt dropAllNaNRows
      rw [List.map_map]
      apply List.map_congr_left
      intro c hc
      simp only [Function.comp_def]
      rw [getD_of_lt _ _ (by simpa using hi), List.getElem_map]
    rw [hrow_eq]
    exact hKrow

theorem numeric_cols_nodup : numeric_cols.Nodup := by decide

/-- In a duplicate-free list, the sequence of `indexOf` positions of its own
elements is monotone along the list. -/
theorem pairwise_indexOf_le {l : List String} (h : l.Nodup) :
    l.Pairwise (fun a b => l.indexOf a ≤ l.indexOf b) := by
  rw [List.pairwise_iff_getElem]
  intro i j hi hj hij
  rw [List.indexOf_getElem h i hi, List.indexOf_getElem h j hj]
  exact Nat.le_of_lt hij

/-- Every column selected by the allow-list pass carries an allow-listed
name. -/
theorem mem_numeric_cols_of_selectCols_name {t : RawFrame} {x : String}
    (hx : x ∈ (selectCols t).map Prod.fst) : x ∈ numeric_cols := by
  unfold selectCols at hx
  obtain ⟨c, hc, rfl⟩ := List.mem_map.mp hx
  obtain ⟨n, hn, hcf⟩ := List.mem_flatMap.mp hc
  have hcn : c.1 = n := by simpa using (List.mem_filter.mp hcf).2
  rw [hcn]
  exact hn

/-- The names of the selected columns occur in allow-list order: their
allow-list positions are monotone along the frame (a duplicated label
contributes an adjacent run of equal names). -/
theorem selectCols_names_pairwise (t : RawFrame) :
    ((selectCols t).map Prod.fst).Pairwise
      (fun a b => numeric_cols.indexOf a ≤ numeric_cols.indexOf b) := by
  unfold selectCols
  suffices h : ∀ ns : List String,
      ns.Pairwise (fun a b => numeric_cols.indexOf a ≤ numeric_cols.indexOf b) →
      ((ns.flatMap (fun n => t.filter (fun c => c.1 == n))).map Prod.fst).Pairwise
        (fun a b => numeric_cols.indexOf a ≤ numeric_cols.indexOf b) from
    h numeric_cols (pairwise_indexOf_le numeric_cols_nodup)
  intro ns hns
  induction ns with
  | nil => simp
  | cons n ns ih =>
    have hgroup : ∀ x ∈ (t.filter (fun c => c.1 == n)).map Prod.fst, x = n := by
      intro x hx
      obtain ⟨c, hc, rfl⟩ := List.mem_map.mp hx
      simpa using (List.mem_filter.mp hc).2
    rw [List.flatMap_cons, List.map_append, List.pairwise_append]
    refine ⟨?_, ih (List.pairwise_cons.mp hns).2, ?_⟩
    · refine List.pairwise_of_forall_mem_list ?_
      intro a ha b hb
      rw [hgroup a ha, hgroup b hb]
    · intro x hx y hy
      obtain ⟨c, hc, rfl⟩ := List.mem_map.mp hy
      obtain ⟨m, hm, hcf⟩ := List.mem_flatMap.mp hc
      have hcm : c.1 = m := by simpa using (List.mem_filter.mp hcf).2
      rw [hgroup x hx, hcm]
      exact (List.pairwise_cons.mp hns).1 m hm

/-- The cleaned table's name sequence is a sublist of the selected columns'
name sequence: coercion and the row drop preserve names, the column drop
removes some. -/
theorem load_data_names_sublist_selectCols (raw : RawFrame) :
    List.Sublist ((load_data raw).map Prod.fst)
      ((selectCols (normalizeFrame raw)).map Prod.fst) := by
  have h1 : (dropAllNaNRows (dropAllNaNCols (coerceFrame
        (selectCols (normalizeFrame raw))))).map Prod.fst
      = (dropAllNaNCols (coerceFrame (selectCols (normalizeFrame raw)))).map
          Prod.fst := by
    unfold dropAllNaNRows
    rw [List.map_map]
    rfl
  have h2 : List.Sublist
      ((dropAllNaNCols (coerceFrame (selectCols (normalizeFrame raw)))).map
        Prod.fst)
      ((coerceFrame (selectCols (normalizeFrame raw))).map Prod.fst) :=
    List.Sublist.map Prod.fst (List.filter_sublist _)
  have h3 : (coerceFrame (selectCols (normalizeFrame raw))).map Prod.fst
      = (selectCols (normalizeFrame raw)).map Prod.fst := by
    unfold coerceFrame
    rw [List.map_map]
    rfl
  unfold load_data
  rw [h1]
  exact h3 ▸ h2

/-! ## The claims -/

/-- C1: on every cleaned table the extractor accepts (it returns a result
instead of raising), the returned positive pair is a pair of distinct
columns occurring in the unstacked series with a defined coefficient that is
maximal among all defined off-diagonal coefficients, and the returned
negative pair one whose defined coefficient is minimal. -/
theorem C1_extreme_pairs (t : Frame) (r : CorrResult)
    (hN : (t.map Prod.fst).Nodup)
    (h : calculate_correlation t = Except.ok r) :
    ∃ v u, r.posCorr = some v ∧ r.negCorr = some u ∧
      (r.posPair, some v) ∈ corrSeries t ∧ (r.negPair, some u) ∈ corrSeries t ∧
      r.posPair.1 ≠ r.posPair.2 ∧ r.negPair.1 ≠ r.negPair.2 ∧
      v ∈ definedVals t ∧ u ∈ definedVals t ∧
      (∀ w ∈ definedVals t, w ≤ v) ∧ ∀ w ∈ definedVals t, u ≤ w := by
  obtain ⟨v, u, hv, hu, hpmem, hqmem, hmax, hmin⟩ := calc_ok_spec h
  exact ⟨v, u, hv, hu, hpmem, hqmem,
    entry_names_ne hN hpmem rfl, entry_names_ne hN hqmem rfl,
    mem_definedVals.mpr ⟨_, hpmem, rfl⟩, mem_definedVals.mpr ⟨_, hqmem, rfl⟩,
    hmax, hmin⟩

/-- Witness for C1 at the concrete table `demo2`. -/
theorem C1_extreme_pairs_witness :
    (demo2.map Prod.fst).Nodup ∧
    calculate_correlation demo2 = Except.ok demo2Res ∧
    (∃ v u, demo2Res.posCorr = some v ∧ demo2Res.negCorr = some u ∧
      (demo2Res.posPair, some v) ∈ corrSeries demo2 ∧
      (demo2Res.negPair, some u) ∈ corrSeries demo2 ∧
      demo2Res.posPair.1 ≠ demo2Res.posPair.2 ∧
      demo2Res.negPair.1 ≠ demo2Res.negPair.2 ∧
      v ∈ definedVals demo2 ∧ u ∈ definedVals demo2 ∧
      (∀ w ∈ definedVals demo2, w ≤ v) ∧ ∀ w ∈ definedVals demo2, u ≤ w) :=
  ⟨by decide, by decide, C1_extreme_pairs demo2 demo2Res (by decide) (by decide)⟩

/-- C2 counterexample: in `demo3` all three distinct unordered pairs carry
the coefficient 1 exactly, and value-based deduplication keeps a single
candidate, so it is false that every unordered pair of distinct columns
retains exactly one of its two directions. -/
theorem C2_counterexample :
    ¬ (∀ a ∈ demo3.map Prod.fst, ∀ b ∈ demo3.map Prod.fst, a ≠ b →
        (corrSeriesDeduped demo3).countP
          (fun e => e.1 == (a, b) || e.1 == (b, a)) = 1) := by decide

/-- C2 (amended): the deduplication step keeps at most one candidate per
coefficient value — so a pair and its mirror (which carry equal
coefficients) never both remain — but distinct unordered pairs with exactly
equal coefficients are merged into a single candidate as well; for every two
column names at most one directed entry survives. -/
theorem C2_amended_dedup (t : Frame) (hN : (t.map Prod.fst).Nodup) :
    (corrSeriesDeduped t).Pairwise (fun a b => a.2 ≠ b.2) ∧
    ∀ a b, (corrSeriesDeduped t).countP
      (fun e => e.1 == (a, b) || e.1 == (b, a)) ≤ 1 := by
  refine ⟨corrSeriesDeduped_val_pairwise t, ?_⟩
  intro a b
  apply countP_le_one_of_pairwise
  refine List.Pairwise.imp_of_mem ?_ (corrSeriesDeduped_val_pairwise t)
  intro x y hx hy hxy hmx hmy
  apply hxy
  obtain ⟨jx, ix, hjx, hix, rfl⟩ :=
    mem_corrSeries.mp (mem_series_of_mem_deduped hx)
  obtain ⟨jy, iy, hjy, hiy, rfl⟩ :=
    mem_corrSeries.mp (mem_series_of_mem_deduped hy)
  simp only [Bool.or_eq_true, beq_iff_eq, Prod.mk.injEq] at hmx hmy
  rcases hmx with ⟨hx1, hx2⟩ | ⟨hx1, hx2⟩ <;>
    rcases hmy with ⟨hy1, hy2⟩ | ⟨hy1, hy2⟩
  · have e1 : jx = jy := colName_inj hN hjx hjy (hx1.trans hy1.symm)
    have e2 : ix = iy := colName_inj hN hix hiy (hx2.trans hy2.symm)
    rw [e1, e2]
  · have e1 : jx = iy := colName_inj hN hjx hiy (hx1.trans hy2.symm)
    have e2 : ix = jy := colName_inj hN hix hjy (hx2.trans hy1.symm)
    rw [e2, e1]
    exact corrVal_symm t jy iy
  · have e1 : jx = iy := colName_inj hN hjx hiy (hx1.trans hy2.symm)
    have e2 : ix = jy := colName_inj hN hix hjy (hx2.trans hy1.symm)
    rw [e2, e1]
    exact corrVal_symm t jy iy
  · have e1 : jx = jy := colName_inj hN hjx hjy (hx1.trans hy1.symm)
    have e2 : ix = iy := colName_inj hN hix hiy (hx2.trans hy2.symm)
    rw [e1, e2]

/-- Witness for the amended C2 at the concrete table `demo3`. -/
theorem C2_amended_dedup_witness :
    (demo3.map Prod.fst).Nodup ∧
    ((corrSeriesDeduped demo3).Pairwise (fun a b => a.2 ≠ b.2) ∧
      ∀ a b, (corrSeriesDeduped demo3).countP
        (fun e => e.1 == (a, b) || e.1 == (b, a)) ≤ 1) :=
  ⟨by decide, C2_amended_dedup demo3 (by decide)⟩

/-- C3 counterexample: on a table with a single usable column the extractor
raises the positional IndexError of `.iloc` on an empty series, not the
dedicated InsufficientDataError the claim names (the source defines no such
error). -/
theorem C3_counterexample :
    calculate_correlation demo1 = Except.error PyErr.indexError ∧
    calculate_correlation demo1 ≠ Except.error PyErr.insufficientDataError := by
  decide

/-- C3 (amended): whenever no two distinct columns have at least two
overlapping non-missing observations (in particular for a table with a
single usable column), every coefficient is undefined and the extractor
fails with an uncaught out-of-range indexing error — not with a dedicated
InsufficientDataError — and returns no result. -/
theorem C3_insufficient_fails (t : Frame)
    (h : ∀ i, i < t.length → ∀ j, j < t.length → i ≠ j →
      (pairedObs (colVals t i) (colVals t j)).length ≤ 1) :
    calculate_correlation t = Except.error PyErr.indexError := by
  have hnone : ∀ e ∈ corrSeries t, e.2 = none := by
    intro e he
    obtain ⟨j, i, hj, hi, rfl⟩ := mem_corrSeries.mp he
    exact corrVal_eq_none_of_insufficient h hi hj
  have hfilter : (corrSeriesDeduped t).filter (fun e => e.2.isSome) = [] := by
    rw [List.filter_eq_nil_iff]
    intro e he
    have := hnone e (mem_series_of_mem_deduped he)
    simp [this]
  unfold calculate_correlation
  cases hd : corrSeriesDeduped t with
  | nil => rfl
  | cons p rest =>
    rw [hd] at hfilter
    rw [hfilter]
    rfl

/-- Witness for the amended C3 at the concrete table `demo1`. -/
theorem C3_insufficient_fails_witness :
    (∀ i, i < demo1.length → ∀ j, j < demo1.length → i ≠ j →
      (pairedObs (colVals demo1 i) (colVals demo1 j)).length ≤ 1) ∧
    calculate_correlation demo1 = Except.error PyErr.indexError :=
  ⟨by decide, C3_insufficient_fails demo1 (by decide)⟩

/-- C4: whenever the extractor returns, both the positive and the negative
pair consist of two distinct column names — the masked diagonal never wins
the extremum search. -/
theorem C4_distinct_pairs (t : Frame) (r : CorrResult)
    (hN : (t.map Prod.fst).Nodup)
    (h : calculate_correlation t = Except.ok r) :
    r.posPair.1 ≠ r.posPair.2 ∧ r.negPair.1 ≠ r.negPair.2 := by
  obtain ⟨v, u, hv, hu, hpmem, hqmem, _, _⟩ := calc_ok_spec h
  exact ⟨entry_names_ne hN hpmem rfl, entry_names_ne hN hqmem rfl⟩

/-- Witness for C4 at the concrete table `demo2`. -/
theorem C4_distinct_pairs_witness :
    (demo2.map Prod.fst).Nodup ∧
    calculate_correlation demo2 = Except.ok demo2Res ∧
    (demo2Res.posPair.1 ≠ demo2Res.posPair.2 ∧
      demo2Res.negPair.1 ≠ demo2Res.negPair.2) :=
  ⟨by decide, by decide, C4_distinct_pairs demo2 demo2Res (by decide) (by decide)⟩

/-- C5: the loader drops all-missing columns first and all-missing rows
second, and in the resulting table every retained column and every retained
row holds at least one non-missing value. -/
theorem C5_missing_policy (raw : RawFrame) :
    load_data raw =
      dropAllNaNRows (dropAllNaNCols (coerceFrame
        (selectCols (normalizeFrame raw)))) ∧
    (∀ c ∈ load_data raw, (c.2.any fun v => v.isSome) = true) ∧
    ∀ i, i < numRows (load_data raw) →
      ((rowAt (load_data raw) i).any fun v => v.isSome) = true := by
  refine ⟨rfl, ?_, ?_⟩
  · show ∀ c ∈ dropAllNaNRows (dropAllNaNCols (coerceFrame
        (selectCols (normalizeFrame raw)))),
      (c.2.any fun v => v.isSome) = true
    exact dropAllNaNRows_cols_have_value
      (fun c hc => (List.mem_filter.mp hc).2)
  · show ∀ i, i < numRows (dropAllNaNRows (dropAllNaNCols (coerceFrame
        (selectCols (normalizeFrame raw))))) → _
    exact dropAllNaNRows_rows_have_value _

/-- Witness for C5 at the concrete raw table `demoRaw`. -/
theorem C5_missing_policy_witness :
    ("신장", [some (170 : ℚ)]) ∈ load_data demoRaw ∧
    0 < numRows (load_data demoRaw) ∧
    ((("신장", [some (170 : ℚ)]) : String × List (Option ℚ)).2.any
      fun v => v.isSome) = true ∧
    ((rowAt (load_data demoRaw) 0).any fun v => v.isSome) = true :=
  ⟨by decide, by decide,
    (C5_missing_policy demoRaw).2.1 _ (by decide),
    (C5_missing_policy demoRaw).2.2 0 (by decide)⟩

/-- C6: every column of the cleaned table carries a name from the fixed
allow-list; columns outside the allow-list never survive the loader. -/
theorem C6_allowlist (raw : RawFrame) :
    ∀ c ∈ load_data raw, c.1 ∈ numeric_cols := by
  intro c hc
  exact mem_numeric_cols_of_selectCols_name
    ((load_data_names_sublist_selectCols raw).subset
      (List.mem_map_of_mem Prod.fst hc))

/-- Witness for C6 at the concrete raw table `demoRaw` (whose column `junk`
is dropped). -/
theorem C6_allowlist_witness :
    ("신장", [some (170 : ℚ)]) ∈ load_data demoRaw ∧ "신장" ∈ numeric_cols :=
  ⟨by decide, C6_allowlist demoRaw ("신장", [some (170 : ℚ)]) (by decide)⟩

/-- C7: the long-format heatmap table contains no self-pair triple, and for
every unordered pair of columns at most one of the two directions
survives the sorted-pair deduplication. -/
theorem C7_heatmap_pairs (t : Frame) :
    (corr_df t).countP (fun e => e.1.1 == e.1.2) = 0 ∧
    ∀ a b, (corr_df t).countP
      (fun e => e.1 == (a, b) || e.1 == (b, a)) ≤ 1 := by
  constructor
  · rw [List.countP_eq_zero]
    intro e he
    have he' : e ∈ (corrLong t).filter (fun x => x.1.1 != x.1.2) :=
      (dedupKeyed_sublist _ _).subset he
    have hne := (List.mem_filter.mp he').2
    simpa using hne
  · intro a b
    apply countP_le_one_of_pairwise
    unfold corr_df
    refine List.Pairwise.imp ?_
      (dedupKeyed_pairwise (fun e => sortedPair e.1.1 e.1.2)
        ((corrLong t).filter (fun x => x.1.1 != x.1.2)))
    intro x y hxy hmx hmy
    apply hxy
    simp only [Bool.or_eq_true, beq_iff_eq] at hmx hmy
    have kx : sortedPair x.1.1 x.1.2 = sortedPair a b := by
      rcases hmx with h | h
      · rw [show x.1.1 = a from by rw [h], show x.1.2 = b from by rw [h]]
      · rw [show x.1.1 = b from by rw [h], show x.1.2 = a from by rw [h]]
        exact sortedPair_comm b a
    have ky : sortedPair y.1.1 y.1.2 = sortedPair a b := by
      rcases hmy with h | h
      · rw [show y.1.1 = a from by rw [h], show y.1.2 = b from by rw [h]]
      · rw [show y.1.1 = b from by rw [h], show y.1.2 = a from by rw [h]]
        exact sortedPair_comm b a
    rw [kx, ky]

/-- C8: if exactly one entry with a defined coefficient survives
deduplication, the extractor returns that entry — same pair, same
coefficient — as both the positive and the negative extreme. -/
theorem C8_single_pair (t : Frame) (e : Entry)
    (h : (corrSeriesDeduped t).filter (fun x => x.2.isSome) = [e]) :
    calculate_correlation t =
      Except.ok ⟨e.1, e.2, e.1, e.2, corrMatrixMasked t⟩ := by
  cases hd : corrSeriesDeduped t with
  | nil => rw [hd] at h; simp at h
  | cons p rest =>
    have hDsorted : List.Sorted entryGE (p :: rest) :=
      hd ▸ corrSeriesDeduped_sorted t
    rw [hd] at h
    have hef : e ∈ (p :: rest).filter (fun x => x.2.isSome) := by
      rw [h]; exact List.mem_cons_self _ _
    have heSome : e.2.isSome := (List.mem_filter.mp hef).2
    obtain ⟨u, hu⟩ := Option.isSome_iff_exists.mp heSome
    have heD : e ∈ p :: rest := List.mem_of_mem_filter hef
    have hpe : entryGE p e := rel_head_of_sorted hDsorted e heD
    have hpSome : p.2.isSome := by
      cases hp2 : p.2 with
      | some v => simp
      | none =>
        exfalso
        unfold entryGE at hpe
        rw [hp2, hu] at hpe
        simp only [sortKey] at hpe
        exact WithBot.not_coe_le_bot u hpe
    have hpf : p ∈ (p :: rest).filter (fun x => x.2.isSome) :=
      List.mem_filter.mpr ⟨List.mem_cons_self _ _, hpSome⟩
    have hpe' : p = e := by rw [h] at hpf; simpa using hpf
    subst hpe'
    unfold calculate_correlation
    rw [hd]
    dsimp only
    rw [h]
    rfl

/-- Witness for C8 at the concrete table `demo2`. -/
theorem C8_single_pair_witness :
    (corrSeriesDeduped demo2).filter (fun x => x.2.isSome) =
      [(("신장", "체중"), some 1)] ∧
    calculate_correlation demo2 = Except.ok
      ⟨("신장", "체중"), some 1, ("신장", "체중"), some 1,
        corrMatrixMasked demo2⟩ :=
  ⟨by decide, C8_single_pair demo2 (("신장", "체중"), some 1) (by decide)⟩

/-- C9: on the one-column table `demo1` no pairwise coefficient is defined;
the positive extreme is read off the unfiltered deduplicated series and is
the NaN self-entry, while the negative-extreme lookup filters the series to
an empty candidate list and the extractor raises an out-of-range indexing
error. -/
theorem C9_degenerate_lookup :
    (corrSeriesDeduped demo1).head? = some (("나이", "나이"), none) ∧
    (corrSeriesDeduped demo1).filter (fun e => e.2.isSome) = [] ∧
    calculate_correlation demo1 = Except.error PyErr.indexError := by
  decide

/-- C10: the columns of the cleaned table carry allow-listed names and
appear in the fixed order of the allow-list constant, regardless of the
order of the input columns: the sequence of allow-list positions of the
column names is monotone along the table.  A label duplicated by
normalization collisions contributes adjacent repeated columns at its
allow-list position (pandas label-based selection keeps every column
bearing the label), which the ordering statement accommodates. -/
theorem C10_column_order (raw : RawFrame) :
    (∀ x ∈ (load_data raw).map Prod.fst, x ∈ numeric_cols) ∧
    ((load_data raw).map Prod.fst).Pairwise
      (fun a b => numeric_cols.indexOf a ≤ numeric_cols.indexOf b) := by
  constructor
  · intro x hx
    exact mem_numeric_cols_of_selectCols_name
      ((load_data_names_sublist_selectCols raw).subset hx)
  · exact List.Pairwise.sublist (load_data_names_sublist_selectCols raw)
      (selectCols_names_pairwise _)

/-- Witness for C10 at the concrete raw table `demoRaw`. -/
theorem C10_column_order_witness :
    "신장" ∈ (load_data demoRaw).map Prod.fst ∧
    "신장" ∈ numeric_cols ∧
    ((load_data demoRaw).map Prod.fst).Pairwise
      (fun a b => numeric_cols.indexOf a ≤ numeric_cols.indexOf b) :=
  ⟨by decide, (C10_column_order demoRaw).1 "신장" (by decide),
    (C10_column_order demoRaw).2⟩

end FitCorr
